import Mathlib

/-!
Verification of the ingestion/sync core of crossref-lmdb.

The development shallowly embeds the Python sources:
  - `src/crossref_lmdb/date.py`   (indexed-timestamp extraction)
  - `src/crossref_lmdb/main.py`   (`Inserter`, batched transactional writes)
  - `src/crossref_lmdb/items.py`  (`insert_item` with an overwrite policy)
  - `src/crossref_lmdb/db.py`     (`DBReader`: get / len / value scan)
  - `src/crossref_lmdb/file.py`   (`FileSource` segment ordering and resume)
  - `src/crossref_lmdb/web.py`    (`WebSource` cursor pagination loop)

Modelling conventions:
  - bytes are `List Nat`;
  - a `datetime.datetime` is an `Int`, the number of minutes since
    1900-01-01T00:00 (the comparison order of datetimes is the usual order
    on these integers, and the calendar-date of a datetime is its floor
    division by 1440, so `strftime("%Y-%m-%d")` is embedded by `Int.fdiv
    · 1440`);
  - the LMDB store and an open write transaction are association lists from
    string keys to byte values, updated by `store_put` (last write wins,
    keys stay unique);
  - external collaborators that the spec rules out of scope (simdjson
    serialisation/parsing, zlib compression, `datetime.fromisoformat`) are
    collected in a record `Env` of opaque functions; theorems assume only
    the documented contracts of those collaborators (for zlib: that
    decompression inverts compression, and that failed decompression is
    distinguishable), and each such theorem is instantiated on a concrete
    `Env` witness;
  - a raised Python exception is an `Except` error value; `PyErr`
    distinguishes the exception class where a claim depends on it.
-/

/-- Byte strings. -/
abbrev Bytes := List Nat

/-- Python exception classes that the claims distinguish. -/
inductive PyErr
  | keyError
  | typeError
  | valueError
deriving DecidableEq, Repr

/-- Shape of the `item["indexed"]` JSON substructure, as far as
`date.get_indexed_datetime` inspects it. Each constructor names the exact
condition in `date.py`:
  - `absent`: `item["indexed"]` raises `KeyError`;
  - `notObj`: present but not a `simdjson.Object`;
  - `noDateTime`: an object whose `["date-time"]` raises `KeyError`;
  - `dtNotStr`: `["date-time"]` present but not a `str`;
  - `dtStr s`: `["date-time"]` is the string `s`. -/
inductive IndexedField
  | absent
  | notObj
  | noDateTime
  | dtNotStr
  | dtStr (s : String)
deriving DecidableEq, Repr

/-- A parsed item record: its `"DOI"` field (`none` when the key is
absent) and its `"indexed"` substructure. Other fields of the document do
not influence the embedded code paths. -/
structure Item where
  doi : Option String
  indexed : IndexedField
deriving DecidableEq, Repr

/-- External collaborators, opaque to the spec (out of scope there):
  - `mini`: serialisation `item.mini` of simdjson;
  - `parse`: `simdjson.Parser().parse` of stored bytes, `none` when the
    bytes do not parse as an item object (Python: `ValueError`);
  - `compress lvl b`: `zlib.compress(b, level=lvl)`;
  - `decompress b`: `zlib.decompress(b)`, `none` when it raises
    `zlib.error`;
  - `fromIso s`: `datetime.datetime.fromisoformat(s)`, `none` when it
    raises `ValueError`;
  - `isoEnc t`: `t.isoformat().encode()` for a datetime `t`. -/
structure Env where
  mini : Item → Bytes
  parse : Bytes → Option Item
  compress : Int → Bytes → Bytes
  decompress : Bytes → Option Bytes
  fromIso : String → Option Int
  isoEnc : Int → Bytes

/-- The single reserved bookkeeping key (`db.py` `_special_keys`,
`main.py` watermark writes). -/
def reservedKey : String := "__most_recent_indexed"

/-- The far-past floor `datetime.datetime(year=1900, month=1, day=1)` that
`main.run` starts from: minute 0 in our encoding. Datetimes before it are
negative. -/
def watermarkFloor : Int := 0

/-! String helpers. The Python code uses `str.endswith`, slicing and
`int(...)`; the embeddings below work on the character list of the string
(structurally recursive, so concrete inputs evaluate inside the kernel). -/

/-- Embeds `s.endswith("Z")`: the last character is `Z`. -/
def ends_with_z (s : String) : Bool := s.data.getLast? == some 'Z'

/-- Embeds the slice `s[:-1]`: drop the final character. -/
def drop_last_char (s : String) : String := String.mk s.data.dropLast

/-- Embeds the slice `s[:-n]`: keep all but the last `n` characters. -/
def drop_right_n (s : String) (n : Nat) : String :=
  String.mk (s.data.take (s.data.length - n))

/-- Embeds `s.startswith("__")`: the first two characters are
underscores. -/
def starts_with_uu (s : String) : Bool := s.data.take 2 == ['_', '_']

/-- Decimal digit of a character, if any. -/
def digit? (c : Char) : Option Nat :=
  if c.isDigit then some (c.toNat - 48) else none

/-- Accumulating decimal parse. -/
def parse_nat_aux : List Char → Nat → Option Nat
  | [], acc => some acc
  | c :: rest, acc =>
      match digit? c with
      | some d => parse_nat_aux rest (acc * 10 + d)
      | none => none

/-- Embeds Python `int(s)` on the inputs that matter here: a non-empty
all-digit string parses to its decimal value, anything else raises
(`none`). (Python `int` also accepts signs and surrounding whitespace;
segment file names under the claims are plain digit strings.) -/
def parse_int (s : String) : Option Nat :=
  match s.data with
  | [] => none
  | l => parse_nat_aux l 0

/-! Store model: an association list with unique keys, first match wins on
lookup; `store_put` is the semantics of `lmdb` `txn.put(key, value)` with
the default `overwrite=True` (replace in place, or append a fresh key). -/

/-- Keyed store (also used for the write set of an open transaction). -/
abbrev Store := List (String × Bytes)

/-- Lookup (`txn.get`): first entry with the key. -/
def store_get : Store → String → Option Bytes
  | [], _ => none
  | (k, v) :: rest, key => if k = key then some v else store_get rest key

/-- Upsert (`txn.put` with `overwrite=True`): replace the existing entry
in place, else append. -/
def store_put : Store → String → Bytes → Store
  | [], key, val => [(key, val)]
  | (k, v) :: rest, key, val =>
      if k = key then (key, val) :: rest else (k, v) :: store_put rest key val

/-- Semantics of `lmdb` `txn.put(key, value, overwrite=...)`: with
`overwrite=False` an existing key is left unchanged and `False` is
returned; otherwise the entry is written and `True` is returned. -/
def lmdb_put (store : Store) (key : String) (val : Bytes) (overwrite : Bool) :
    Store × Bool :=
  if overwrite then (store_put store key val, true)
  else
    match store_get store key with
    | some _ => (store, false)
    | none => (store_put store key val, true)

/-- Keys of a store. -/
def store_keys (store : Store) : List String := store.map Prod.fst

@[simp]
theorem store_keys_nil : store_keys [] = [] := rfl

@[simp]
theorem store_keys_cons (k : String) (v : Bytes) (rest : Store) :
    store_keys ((k, v) :: rest) = k :: store_keys rest := rfl

@[simp]
theorem store_get_nil (key : String) : store_get [] key = none := rfl

@[simp]
theorem store_get_cons (k : String) (v : Bytes) (rest : Store) (key : String) :
    store_get ((k, v) :: rest) key =
      if k = key then some v else store_get rest key := rfl

/-- Lookup after upsert. -/
theorem store_get_put (m : Store) (k : String) (v : Bytes) (key : String) :
    store_get (store_put m k v) key = if k = key then some v else store_get m key := by
  induction m with
  | nil => simp [store_put, store_get, eq_comm]
  | cons hd tl ih =>
      obtain ⟨k0, v0⟩ := hd
      by_cases h0 : k0 = k
      · subst h0
        by_cases h1 : k0 = key <;> simp [store_put, store_get, h1]
      · by_cases h1 : k0 = key
        · subst h1
          simp [store_put, store_get, h0, Ne.symm h0]
        · simp [store_put, store_get, h0, h1, ih]

/-- Upsert keeps the key set: a key is present afterwards iff it is the
written key or was present before. -/
theorem store_keys_put (m : Store) (k : String) (v : Bytes) :
    store_keys (store_put m k v) =
      if k ∈ store_keys m then store_keys m else store_keys m ++ [k] := by
  induction m with
  | nil => simp [store_put]
  | cons hd tl ih =>
      obtain ⟨k0, v0⟩ := hd
      by_cases h0 : k0 = k
      · subst h0
        simp [store_put]
      · by_cases h1 : k ∈ store_keys tl
        · simp [store_put, h0, Ne.symm h0, h1, ih]
        · simp [store_put, h0, Ne.symm h0, h1, ih]

/-- Upsert preserves uniqueness of keys. -/
theorem store_put_nodup (m : Store) (k : String) (v : Bytes)
    (h : (store_keys m).Nodup) : (store_keys (store_put m k v)).Nodup := by
  rw [store_keys_put]
  by_cases hk : k ∈ store_keys m
  · simpa [hk] using h
  · rw [if_neg hk]
    exact List.Nodup.append h (List.nodup_singleton k)
      (fun a ha hb => hk ((List.mem_singleton.mp hb) ▸ ha))

/-- A key is in the key list iff lookup succeeds. -/
theorem mem_store_keys_iff (m : Store) (key : String) :
    key ∈ store_keys m ↔ (store_get m key).isSome := by
  induction m with
  | nil => simp
  | cons hd tl ih =>
      obtain ⟨k0, v0⟩ := hd
      by_cases h0 : k0 = key
      · subst h0
        simp
      · simpa [h0, Ne.symm h0] using ih

/-! Embedding of `date.py`. -/

/-- Embeds `date.parse_indexed_datetime`: reject a string without the
trailing `"Z"` designator (`ValueError`), else parse the rest with
`datetime.fromisoformat` (whose own failure is also a `ValueError`). -/
def parse_indexed_datetime (E : Env) (s : String) : Except Unit Int :=
  if ends_with_z s then
    match E.fromIso (drop_last_char s) with
    | some t => .ok t
    | none => .error ()
  else .error ()

/-- Embeds `date.get_indexed_datetime`: `none` when the `"indexed"` object
or its `"date-time"` field is absent, `ValueError` when either has an
unexpected type or the date string fails to parse. -/
def get_indexed_datetime (E : Env) (item : Item) : Except Unit (Option Int) :=
  match item.indexed with
  | .absent => .ok none
  | .notObj => .error ()
  | .noDateTime => .ok none
  | .dtNotStr => .error ()
  | .dtStr s =>
      match parse_indexed_datetime E s with
      | .ok t => .ok (some t)
      | .error e => .error e

/-! Embedding of `main.py` `Inserter`. -/

/-- Mutable state of `main.Inserter`: the optionally-open write
transaction (`none` = no transaction; `some t` = open with pending write
set `t`), the durable store behind it, the running put counter
`item_count`, and the in-memory watermark `most_recent_indexed`. -/
structure InserterState where
  txn : Option Store
  committed : Store
  item_count : Nat
  most_recent_indexed : Int
deriving Repr

/-- Committing a transaction applies its pending writes, in order, to the
durable store. -/
def commit_txn (committed : Store) (txn : Store) : Store :=
  txn.foldl (fun acc kv => store_put acc kv.1 kv.2) committed

/-- Embeds `Inserter.insert`: lazily open a transaction if none is open
(`init_txn`), `put` the pair, bump `item_count`, and when `item_count`
has reached a multiple of `commit_frequency`, commit and drop the
transaction. -/
def Inserter.insert (freq : Nat) (st : InserterState) (key : String) (val : Bytes) :
    InserterState :=
  let t0 := st.txn.getD []
  let t1 := store_put t0 key val
  let c1 := st.item_count + 1
  if c1 % freq = 0 then
    { txn := none, committed := commit_txn st.committed t1, item_count := c1,
      most_recent_indexed := st.most_recent_indexed }
  else
    { st with txn := some t1, item_count := c1 }

/-- Embeds `Inserter.insert_item`: skip (with a warning) an item without a
`"DOI"`; otherwise put the compressed item bytes under the DOI, extract the
indexed datetime, warn and stop if it is absent, and if it exceeds the
in-memory watermark stage a write of the reserved key with the encoded new
watermark and advance the in-memory value. A `ValueError` from the
extraction propagates out of `insert_item`; the `.error` value carries the
state at raise time (in Python the DOI put has already been staged in the
open transaction when the extraction raises). -/
def Inserter.insert_item (E : Env) (freq : Nat) (lvl : Int)
    (st : InserterState) (item : Item) : Except InserterState InserterState :=
  match item.doi with
  | none => .ok st
  | some doi =>
      match get_indexed_datetime E item with
      | .error _ =>
          .error (Inserter.insert freq st doi (E.compress lvl (E.mini item)))
      | .ok none =>
          .ok (Inserter.insert freq st doi (E.compress lvl (E.mini item)))
      | .ok (some t) =>
          if (Inserter.insert freq st doi
                (E.compress lvl (E.mini item))).most_recent_indexed < t then
            .ok { Inserter.insert freq
                    (Inserter.insert freq st doi (E.compress lvl (E.mini item)))
                    reservedKey (E.compress lvl (E.isoEnc t)) with
                  most_recent_indexed := t }
          else .ok (Inserter.insert freq st doi (E.compress lvl (E.mini item)))

/-- Embeds `Inserter.__exit__`: commit a still-open transaction (a no-op
commit when none is open). -/
def Inserter.exit (st : InserterState) : Store :=
  match st.txn with
  | none => st.committed
  | some t => commit_txn st.committed t

/-- The item loop of `main.run` inside the `with Inserter(...)` block,
before the context manager exits: thread the state through
`insert_item`, propagating any exception. -/
def run_items (E : Env) (freq : Nat) (lvl : Int) :
    InserterState → List Item → Except InserterState InserterState
  | st, [] => .ok st
  | st, item :: rest =>
      match Inserter.insert_item E freq lvl st item with
      | .error stE => .error stE
      | .ok st1 => run_items E freq lvl st1 rest

/-- Initial `Inserter` state: no transaction, a given durable store, a
zero counter, and a given initial watermark. -/
def init_state (committed : Store) (w0 : Int) : InserterState :=
  { txn := none, committed := committed, item_count := 0,
    most_recent_indexed := w0 }

/-- A full `main.run` ingestion starting from an empty store: the reader
finds no persisted watermark, so the in-memory watermark starts at the
1900-01-01 floor; on success the final durable store is the one after
`Inserter.__exit__`. -/
def run_ingest (E : Env) (freq : Nat) (lvl : Int) (items : List Item) :
    Except Unit Store :=
  match run_items E freq lvl (init_state [] watermarkFloor) items with
  | .error _ => .error ()
  | .ok st => .ok (Inserter.exit st)

/-- The `with Inserter(...)` block with context-manager semantics on the
error path as well: even when an `insert_item` raises, `__exit__` still
commits the pending transaction. Returns whether the run completed and
the durable store after exit. -/
def run_items_with_exit (E : Env) (freq : Nat) (lvl : Int) :
    InserterState → List Item → Bool × Store
  | st, [] => (true, Inserter.exit st)
  | st, item :: rest =>
      match Inserter.insert_item E freq lvl st item with
      | .error stE => (false, Inserter.exit stE)
      | .ok st1 => run_items_with_exit E freq lvl st1 rest

/-! Transaction/commit algebra: pending writes of the open transaction,
applied at commit time, behave like direct upserts on the durable store.
`merge_all` is the "durable store as of the next commit" view of an
`Inserter` state. -/

@[simp]
theorem commit_txn_nil (c : Store) : commit_txn c [] = c := rfl

@[simp]
theorem commit_txn_cons (c : Store) (k : String) (v : Bytes) (t : Store) :
    commit_txn c ((k, v) :: t) = commit_txn (store_put c k v) t := rfl

/-- Writing the same key twice keeps only the last value. -/
theorem store_put_put_same (m : Store) (k : String) (x v : Bytes) :
    store_put (store_put m k x) k v = store_put m k v := by
  induction m with
  | nil => simp [store_put]
  | cons hd tl ih =>
      obtain ⟨k0, v0⟩ := hd
      by_cases h0 : k0 = k
      · subst h0
        simp [store_put]
      · simp [store_put, h0, ih]

/-- Membership in the key set survives any upsert. -/
theorem mem_store_keys_put_of_mem (m : Store) (a : String) (x : Bytes)
    (k : String) (h : k ∈ store_keys m) : k ∈ store_keys (store_put m a x) := by
  rw [mem_store_keys_iff] at h ⊢
  rw [store_get_put]
  by_cases ha : a = k <;> simp [ha, h]

/-- Upserts at distinct keys commute when the second key is already
present (its entry is replaced in place, so list order is unaffected). -/
theorem store_put_comm (m : Store) (a : String) (x : Bytes) (k : String)
    (v : Bytes) (hak : a ≠ k) (hk : k ∈ store_keys m) :
    store_put (store_put m a x) k v = store_put (store_put m k v) a x := by
  induction m with
  | nil => simp at hk
  | cons hd tl ih =>
      obtain ⟨k0, v0⟩ := hd
      by_cases h0 : k0 = a
      · subst h0
        simp [store_put, hak, Ne.symm hak]
      · by_cases h1 : k0 = k
        · subst h1
          simp [store_put, h0, Ne.symm hak]
        · have hk1 : k ∈ store_keys tl := by
            simpa [Ne.symm h1] using hk
          simp [store_put, h0, h1, ih hk1]

/-- An upsert at a key already present in the durable store and untouched
by the pending writes can be staged before or after those writes. -/
theorem store_put_commit_txn (t : Store) (c : Store) (k : String) (v : Bytes)
    (hc : k ∈ store_keys c) (ht : k ∉ store_keys t) :
    store_put (commit_txn c t) k v = commit_txn (store_put c k v) t := by
  induction t generalizing c with
  | nil => rfl
  | cons hd r ih =>
      obtain ⟨b, y⟩ := hd
      have hbk : b ≠ k := by
        intro h
        exact ht (by simp [h])
      have hr : k ∉ store_keys r := fun h => ht (by simp [h])
      rw [commit_txn_cons, commit_txn_cons,
        ih (store_put c b y) (mem_store_keys_put_of_mem c b y k hc) hr,
        store_put_comm c b y k v hbk hc]

/-- Key lemma: a put into the open transaction has the same effect on the
merged view as a put straight into the merged store (pending keys are
unique, so the replaced entry is the only one for that key). -/
theorem commit_txn_put (t : Store) (c : Store) (k : String) (v : Bytes)
    (hnd : (store_keys t).Nodup) :
    commit_txn c (store_put t k v) = store_put (commit_txn c t) k v := by
  induction t generalizing c with
  | nil => rfl
  | cons hd rest ih =>
      obtain ⟨a, x⟩ := hd
      have hnd0 : a ∉ store_keys rest := by
        simpa using (List.nodup_cons.mp (by simpa using hnd)).1
      have hndr : (store_keys rest).Nodup := by
        simpa using (List.nodup_cons.mp (by simpa using hnd)).2
      by_cases h0 : a = k
      · subst h0
        have hmem : a ∈ store_keys (store_put c a x) := by
          rw [mem_store_keys_iff, store_get_put, if_pos rfl]
          rfl
        rw [show store_put ((a, x) :: rest) a v = (a, v) :: rest by
            simp [store_put]]
        rw [commit_txn_cons, commit_txn_cons,
          store_put_commit_txn rest (store_put c a x) a v hmem hnd0,
          store_put_put_same]
      · rw [show store_put ((a, x) :: rest) k v = (a, x) :: store_put rest k v by
            simp [store_put, h0]]
        rw [commit_txn_cons, commit_txn_cons, ih (store_put c a x) hndr]

/-- Durable store merged with the pending writes of the open transaction:
what the store will contain once the transaction commits (`db.py` readers
see `st.committed`; `merge_all` is what `Inserter.exit` produces). -/
def merge_all (st : InserterState) : Store :=
  commit_txn st.committed (st.txn.getD [])

/-- Well-formedness of an `Inserter` state: pending write-set keys are
unique (true by construction, since the write set grows by `store_put`). -/
def TxnOk (st : InserterState) : Prop :=
  (store_keys (st.txn.getD [])).Nodup

theorem txnok_init (c : Store) (w0 : Int) : TxnOk (init_state c w0) := by
  simp [TxnOk, init_state]

/-- `Inserter.exit` produces exactly the merged view. -/
theorem inserter_exit_eq_merge_all (st : InserterState) :
    Inserter.exit st = merge_all st := by
  unfold Inserter.exit merge_all
  cases st.txn <;> rfl

/-- `Inserter.insert` preserves well-formedness. -/
theorem insert_txnok (freq : Nat) (st : InserterState) (k : String) (v : Bytes)
    (h : TxnOk st) : TxnOk (Inserter.insert freq st k v) := by
  unfold Inserter.insert TxnOk
  by_cases hc : (st.item_count + 1) % freq = 0
  · simp [hc]
  · simp only [hc, if_neg hc, Option.getD_some]
    exact store_put_nodup _ k v h

/-- `Inserter.insert` is, on the merged view, exactly one upsert —
whether or not it triggers a commit. -/
theorem insert_merge_all (freq : Nat) (st : InserterState) (k : String)
    (v : Bytes) (h : TxnOk st) :
    merge_all (Inserter.insert freq st k v) = store_put (merge_all st) k v := by
  unfold Inserter.insert merge_all
  by_cases hc : (st.item_count + 1) % freq = 0
  · simp only [hc, if_pos hc, Option.getD_none, commit_txn_nil]
    exact commit_txn_put _ _ k v h
  · simp only [hc, if_neg hc, Option.getD_some]
    exact commit_txn_put _ _ k v h

@[simp]
theorem insert_most_recent (freq : Nat) (st : InserterState) (k : String)
    (v : Bytes) :
    (Inserter.insert freq st k v).most_recent_indexed = st.most_recent_indexed := by
  unfold Inserter.insert
  by_cases hc : (st.item_count + 1) % freq = 0 <;> simp [hc]

@[simp]
theorem insert_item_count (freq : Nat) (st : InserterState) (k : String)
    (v : Bytes) :
    (Inserter.insert freq st k v).item_count = st.item_count + 1 := by
  unfold Inserter.insert
  by_cases hc : (st.item_count + 1) % freq = 0 <;> simp [hc]

/-! Watermark bookkeeping for `main.run` ingestion. -/

/-- The indexed timestamps of the accepted records that had one: an item
contributes iff it has a `"DOI"` and its indexed datetime extracts to a
value (order of contributions follows arrival order). -/
def accepted_ts (E : Env) (items : List Item) : List Int :=
  items.filterMap fun item =>
    match item.doi with
    | none => none
    | some _ =>
        match get_indexed_datetime E item with
        | .ok (some t) => some t
        | _ => none

/-- The running maximum that `main.run` maintains: the fold of `max` over
the accepted timestamps, started at the 1900-01-01 floor. -/
def max_accepted (E : Env) (items : List Item) : Int :=
  (accepted_ts E items).foldl max watermarkFloor

theorem le_foldl_max (l : List Int) (a : Int) : a ≤ l.foldl max a := by
  induction l generalizing a with
  | nil => exact le_refl a
  | cons t rest ih => exact le_trans (le_max_left a t) (ih (max a t))

theorem foldl_max_eq_or_mem (l : List Int) (a : Int) :
    l.foldl max a = a ∨ l.foldl max a ∈ l := by
  induction l generalizing a with
  | nil => exact Or.inl rfl
  | cons t rest ih =>
      rcases ih (max a t) with h | h
      · rw [List.foldl_cons, h]
        rcases max_choice a t with h1 | h1
        · exact Or.inl h1
        · exact Or.inr (by simp [h1])
      · exact Or.inr (List.mem_cons_of_mem t h)

theorem le_foldl_max_of_mem (l : List Int) :
    ∀ (a t : Int), t ∈ l → t ≤ l.foldl max a := by
  induction l with
  | nil => intro a t h; simp at h
  | cons u rest ih =>
      intro a t h
      rcases List.mem_cons.mp h with h1 | h1
      · subst h1
        exact le_trans (le_max_right a t) (le_foldl_max rest (max a t))
      · exact ih (max a u) t h1

theorem merge_all_set_watermark (st : InserterState) (t : Int) :
    merge_all { st with most_recent_indexed := t } = merge_all st := rfl

theorem txnok_set_watermark (st : InserterState) (t : Int) :
    TxnOk { st with most_recent_indexed := t } ↔ TxnOk st := Iff.rfl

/-- One `insert_item` step: the in-memory watermark never decreases
(second half of the C1 claim). -/
theorem insert_item_mono (E : Env) (freq : Nat) (lvl : Int)
    (st : InserterState) (item : Item) (st1 : InserterState)
    (h : Inserter.insert_item E freq lvl st item = .ok st1) :
    st.most_recent_indexed ≤ st1.most_recent_indexed := by
  unfold Inserter.insert_item at h
  split at h
  · cases h
    exact le_refl _
  · split at h
    · simp at h
    · cases h
      simp
    · split at h
      · rename_i t hidx hcmp
        cases h
        show st.most_recent_indexed ≤ t
        simp only [insert_most_recent] at hcmp
        exact le_of_lt hcmp
      · cases h
        simp

/-- One `insert_item` step, full bookkeeping: well-formedness is kept, the
watermark becomes the running maximum, and the merged view of the reserved
key either still holds the previous answer (when the watermark did not
move) or holds the freshly encoded watermark. -/
theorem insert_item_step (E : Env) (freq : Nat) (lvl : Int)
    (st : InserterState) (item : Item) (st1 : InserterState)
    (h : Inserter.insert_item E freq lvl st item = .ok st1)
    (htxn : TxnOk st) (hres : item.doi ≠ some reservedKey) :
    TxnOk st1 ∧
    st1.most_recent_indexed =
      (accepted_ts E [item]).foldl max st.most_recent_indexed ∧
    (if st1.most_recent_indexed = st.most_recent_indexed then
        store_get (merge_all st1) reservedKey =
          store_get (merge_all st) reservedKey
      else
        store_get (merge_all st1) reservedKey =
          some (E.compress lvl (E.isoEnc st1.most_recent_indexed))) := by
  unfold Inserter.insert_item at h
  split at h
  · rename_i hdoi
    cases h
    refine ⟨htxn, ?_, ?_⟩
    · simp [accepted_ts, hdoi]
    · rw [if_pos rfl]
  · rename_i doi hdoi
    have hdr : doi ≠ reservedKey := fun hh => hres (hh ▸ hdoi)
    split at h
    · simp at h
    · rename_i hidx
      cases h
      refine ⟨insert_txnok freq st _ _ htxn, ?_, ?_⟩
      · simp [accepted_ts, hdoi, hidx]
      · rw [if_pos (by simp)]
        rw [insert_merge_all freq st _ _ htxn, store_get_put, if_neg hdr]
    · rename_i t hidx
      split at h
      · rename_i hcmp
        cases h
        simp only [insert_most_recent] at hcmp
        have htxn1 := insert_txnok freq st doi
          (E.compress lvl (E.mini item)) htxn
        refine ⟨?_, ?_, ?_⟩
        · rw [txnok_set_watermark]
          exact insert_txnok freq _ reservedKey
            (E.compress lvl (E.isoEnc t)) htxn1
        · simp [accepted_ts, hdoi, hidx, max_eq_right (le_of_lt hcmp)]
        · rw [if_neg (by simpa using ne_of_gt hcmp)]
          rw [merge_all_set_watermark,
            insert_merge_all freq _ _ _ htxn1, store_get_put, if_pos rfl]
      · rename_i hcmp
        cases h
        simp only [insert_most_recent] at hcmp
        refine ⟨insert_txnok freq st _ _ htxn, ?_, ?_⟩
        · simp [accepted_ts, hdoi, hidx, max_eq_left (le_of_not_lt hcmp)]
        · rw [if_pos (by simp)]
          rw [insert_merge_all freq st _ _ htxn, store_get_put, if_neg hdr]

@[simp]
theorem run_items_nil (E : Env) (freq : Nat) (lvl : Int) (st : InserterState) :
    run_items E freq lvl st [] = .ok st := rfl

theorem run_items_cons (E : Env) (freq : Nat) (lvl : Int) (st : InserterState)
    (item : Item) (rest : List Item) :
    run_items E freq lvl st (item :: rest) =
      match Inserter.insert_item E freq lvl st item with
      | .error stE => .error stE
      | .ok st1 => run_items E freq lvl st1 rest := rfl

/-- Splitting a run over an appended item list. -/
theorem run_items_append (E : Env) (freq : Nat) (lvl : Int)
    (l1 l2 : List Item) (st : InserterState) :
    run_items E freq lvl st (l1 ++ l2) =
      match run_items E freq lvl st l1 with
      | .error stE => .error stE
      | .ok st1 => run_items E freq lvl st1 l2 := by
  induction l1 generalizing st with
  | nil => simp
  | cons item rest ih =>
      rw [List.cons_append, run_items_cons, run_items_cons]
      cases Inserter.insert_item E freq lvl st item with
      | error stE => rfl
      | ok st1 => exact ih st1

/-- Invariant of the item loop: pending keys stay unique, the in-memory
watermark is the running maximum of the accepted timestamps (so it is
monotone), and the merged view of the reserved key holds the encoded
in-memory watermark as soon as the watermark has moved at all. -/
theorem run_items_watermark (E : Env) (freq : Nat) (lvl : Int)
    (items : List Item) :
    ∀ (st st1 : InserterState),
      run_items E freq lvl st items = .ok st1 →
      TxnOk st →
      (∀ item ∈ items, item.doi ≠ some reservedKey) →
      TxnOk st1 ∧
      st.most_recent_indexed ≤ st1.most_recent_indexed ∧
      st1.most_recent_indexed =
        (accepted_ts E items).foldl max st.most_recent_indexed ∧
      (if st1.most_recent_indexed = st.most_recent_indexed then
          store_get (merge_all st1) reservedKey =
            store_get (merge_all st) reservedKey
        else
          store_get (merge_all st1) reservedKey =
            some (E.compress lvl (E.isoEnc st1.most_recent_indexed))) := by
  induction items with
  | nil =>
      intro st st1 h htxn _
      cases h
      exact ⟨htxn, le_refl _, rfl, by rw [if_pos rfl]⟩
  | cons item rest ih =>
      intro st st1 h htxn hres
      rw [run_items_cons] at h
      cases hstep : Inserter.insert_item E freq lvl st item with
      | error stE => rw [hstep] at h; cases h
      | ok stm =>
          rw [hstep] at h
          obtain ⟨htxnm, hwm, hifm⟩ :=
            insert_item_step E freq lvl st item stm hstep htxn
              (hres item (List.mem_cons_self item rest))
          have hmono0 := insert_item_mono E freq lvl st item stm hstep
          obtain ⟨htxn1, hmono1, hw1, hif1⟩ :=
            ih stm st1 h htxnm (fun it hit => hres it (List.mem_cons_of_mem item hit))
          refine ⟨htxn1, le_trans hmono0 hmono1, ?_, ?_⟩
          · rw [hw1, hwm]
            have hsplit : accepted_ts E (item :: rest) =
                accepted_ts E [item] ++ accepted_ts E rest := by
              show accepted_ts E ([item] ++ rest) = _
              simp only [accepted_ts, List.filterMap_append]
            rw [hsplit, List.foldl_append]
          · by_cases hfin : st1.most_recent_indexed = st.most_recent_indexed
            · rw [if_pos hfin]
              have hm_eq : stm.most_recent_indexed = st.most_recent_indexed :=
                le_antisymm (hfin ▸ hmono1) hmono0
              rw [if_pos (hfin.trans hm_eq.symm)] at hif1
              rw [if_pos hm_eq] at hifm
              rw [hif1, hifm]
            · rw [if_neg hfin]
              by_cases hmid : st1.most_recent_indexed = stm.most_recent_indexed
              · rw [if_pos hmid] at hif1
                have hm_ne : ¬ stm.most_recent_indexed = st.most_recent_indexed :=
                  fun hh => hfin (hmid.trans hh)
                rw [if_neg hm_ne] at hifm
                rw [hif1, hifm, hmid]
              · rw [if_neg hmid] at hif1
                exact hif1

/-- A concrete instantiation of the external collaborators, used to
evaluate the embedded code on explicit inputs: compression prepends a
marker byte (so decompression of never-compressed bytes fails, as zlib
does), `fromisoformat` measures the string, serialisation is a constant
(all witnesses below ingest at most one item, and the parser is fixed
accordingly). -/
def env1 : Env where
  mini := fun _ => [1]
  parse := fun b => if b = [1] then some ⟨some "a", .dtStr "abcZ"⟩ else none
  compress := fun _ b => 0 :: b
  decompress := fun b =>
    match b with
    | 0 :: r => some r
    | _ => none
  fromIso := fun s => some (s.length : Int)
  isoEnc := fun t => [t.toNat]


/-- Claim C1 as stated: after any completed ingestion into an empty store,
the value persisted under the reserved watermark key equals the (encoded)
maximum indexed-timestamp among the accepted records that had one. -/
def c1_claim_as_stated (E : Env) (freq : Nat) (lvl : Int)
    (items : List Item) : Prop :=
  ∀ store, run_ingest E freq lvl items = .ok store →
    accepted_ts E items ≠ [] →
    ∃ M, M ∈ accepted_ts E items ∧ (∀ t ∈ accepted_ts E items, t ≤ M) ∧
      store_get store reservedKey = some (E.compress lvl (E.isoEnc M))

/-- C1 (counterexample to the claim as stated): a single accepted record
whose indexed timestamp is exactly the 1900-01-01 floor (the datetime
string `1900-01-01T00:00:00Z` is legal) completes the run, has a maximum
indexed-timestamp, yet nothing is ever persisted under the reserved key,
because `insert_item` only stages a watermark write on a strict increase
over the floor the `Inserter` starts from. -/
theorem c1_counterexample :
    ¬ c1_claim_as_stated env1 5 (-1) [⟨some "a", .dtStr "Z"⟩] := by
  intro h
  obtain ⟨M, _, _, hget⟩ :=
    h [("a", [0, 1])] rfl (by decide)
  rw [show store_get [("a", [0, 1])] reservedKey = none from rfl] at hget
  cases hget

/-- C1 (amended): for every completed ingestion into an empty store whose
items never use the reserved key as a DOI, (a) the in-memory watermark is
monotonically non-decreasing across every insert step, and (b) whenever
the maximum accepted indexed-timestamp exceeds the 1900-01-01 floor, the
value persisted under the reserved key is exactly that encoded maximum —
a characterisation (member plus upper bound) independent of the arrival
order of the records. Records whose timestamp does not exceed the floor
stage no watermark write (see `c1_counterexample`). -/
theorem c1_watermark :
    (∀ (E : Env) (freq : Nat) (lvl : Int) (st : InserterState) (item : Item)
        (st1 : InserterState),
        Inserter.insert_item E freq lvl st item = .ok st1 →
        st.most_recent_indexed ≤ st1.most_recent_indexed) ∧
    (∀ (E : Env) (freq : Nat) (lvl : Int) (items : List Item) (store : Store),
        run_ingest E freq lvl items = .ok store →
        (∀ item ∈ items, item.doi ≠ some reservedKey) →
        watermarkFloor < max_accepted E items →
        max_accepted E items ∈ accepted_ts E items ∧
        (∀ t ∈ accepted_ts E items, t ≤ max_accepted E items) ∧
        store_get store reservedKey =
          some (E.compress lvl (E.isoEnc (max_accepted E items)))) := by
  constructor
  · exact insert_item_mono
  · intro E freq lvl items store hok hres hgt
    unfold run_ingest at hok
    cases hrun : run_items E freq lvl (init_state [] watermarkFloor) items with
    | error stE => rw [hrun] at hok; cases hok
    | ok st1 =>
        rw [hrun] at hok
        cases hok
        obtain ⟨_, _, hw, hif⟩ :=
          run_items_watermark E freq lvl items _ st1 hrun
            (txnok_init [] watermarkFloor) hres
        have hw1 : st1.most_recent_indexed = max_accepted E items := by
          rw [hw]; rfl
        have hne : st1.most_recent_indexed ≠ watermarkFloor := by
          rw [hw1]; exact ne_of_gt hgt
        rw [if_neg (by simpa [init_state] using hne)] at hif
        refine ⟨?_, ?_, ?_⟩
        · rcases foldl_max_eq_or_mem (accepted_ts E items) watermarkFloor with
            hcase | hcase
          · exact absurd hcase.symm (ne_of_lt hgt)
          · exact hcase
        · intro t ht
          exact le_foldl_max_of_mem (accepted_ts E items) watermarkFloor t ht
        · rw [inserter_exit_eq_merge_all, hif, hw1]

/-- C1 witness: the amended theorem applied to a concrete one-record run
whose indexed timestamp (minute 3) exceeds the floor. -/
theorem c1_watermark_witness :
    store_get [("a", [0, 1]), (reservedKey, [0, 3])] reservedKey =
      some (env1.compress (-1) (env1.isoEnc
        (max_accepted env1 [⟨some "a", .dtStr "abcZ"⟩]))) :=
  (c1_watermark.2 env1 5 (-1) [⟨some "a", .dtStr "abcZ"⟩]
    [("a", [0, 1]), (reservedKey, [0, 3])] rfl
    (by intro item hmem; simp at hmem; subst hmem; decide)
    (by decide)).2.2

/-- Claim C4 as stated: the transaction commits after every N *record*
insertions — so a run over fewer records than the commit frequency leaves
everything uncommitted until exit. -/
def c4_claim_as_stated (E : Env) (freq : Nat) (lvl : Int) : Prop :=
  ∀ (items : List Item) (st1 : InserterState),
    run_items E freq lvl (init_state [] watermarkFloor) items = .ok st1 →
    items.length < freq →
    st1.committed = []

/-- C4 (counterexample to the claim as stated): with commit frequency 2, a
single record insertion already commits, because the staged watermark
write is counted by the same put counter — after one record (fewer than
N = 2 records) the durable store is non-empty. -/
theorem c4_counterexample : ¬ c4_claim_as_stated env1 2 (-1) := by
  intro h
  have h2 := h [⟨some "a", .dtStr "abcZ"⟩]
    { txn := none, committed := [("a", [0, 1]), (reservedKey, [0, 3])],
      item_count := 2, most_recent_indexed := 3 } rfl (by decide)
  cases h2

/-- C4 (amended): (1) a fresh `Inserter` has no open transaction, and an
insert on a state with no open transaction behaves exactly as opening an
empty transaction first (lazy open); (2) each `insert` bumps the put
counter by one, the transaction is closed after an insert iff the new
counter is a multiple of the commit frequency, the durable store is
untouched by a non-committing insert, and a committing insert makes
exactly the pending writes durable — the counter counts *put operations*
(record writes and watermark writes alike), not records; (3) `__exit__`
commits any still-open transaction, on normal exit and on the error path
alike. -/
theorem c4_batching :
    (∀ (c : Store) (w0 : Int), (init_state c w0).txn = none) ∧
    (∀ (freq : Nat) (st : InserterState) (k : String) (v : Bytes),
        st.txn = none →
        Inserter.insert freq st k v =
          Inserter.insert freq { st with txn := some [] } k v) ∧
    (∀ (freq : Nat) (st : InserterState) (k : String) (v : Bytes),
        (Inserter.insert freq st k v).item_count = st.item_count + 1 ∧
        ((Inserter.insert freq st k v).txn = none ↔
          (st.item_count + 1) % freq = 0) ∧
        ((st.item_count + 1) % freq ≠ 0 →
          (Inserter.insert freq st k v).committed = st.committed) ∧
        ((st.item_count + 1) % freq = 0 →
          (Inserter.insert freq st k v).committed =
            commit_txn st.committed (store_put (st.txn.getD []) k v))) ∧
    (∀ (st : InserterState) (t : Store), st.txn = some t →
        Inserter.exit st = commit_txn st.committed t) ∧
    (∀ (E : Env) (freq : Nat) (lvl : Int) (st stE : InserterState)
        (item : Item) (rest : List Item),
        Inserter.insert_item E freq lvl st item = .error stE →
        run_items_with_exit E freq lvl st (item :: rest) =
          (false, Inserter.exit stE)) := by
  refine ⟨fun c w0 => rfl, ?_, ?_, ?_, ?_⟩
  · intro freq st k v hnone
    unfold Inserter.insert
    rw [hnone]
    rfl
  · intro freq st k v
    refine ⟨insert_item_count freq st k v, ?_, ?_, ?_⟩
    · unfold Inserter.insert
      by_cases hc : (st.item_count + 1) % freq = 0 <;> simp [hc]
    · intro hc
      unfold Inserter.insert
      simp [hc]
    · intro hc
      unfold Inserter.insert
      simp [hc]
  · intro st t h
    unfold Inserter.exit
    rw [h]
  · intro E freq lvl st stE item rest h
    unfold run_items_with_exit
    rw [h]

/-- C4 witness: the amended theorem at concrete inputs — the lazy-open
equation at a fresh state, and the cadence facts for the very first put at
commit frequency 3 (counter 1, transaction still open, store untouched). -/
theorem c4_batching_witness :
    Inserter.insert 3 (init_state [] 0) "a" [7] =
      Inserter.insert 3 { init_state [] 0 with txn := some [] } "a" [7] ∧
    (Inserter.insert 3 (init_state [] 0) "a" [7]).item_count = 1 ∧
    (Inserter.insert 3 (init_state [] 0) "a" [7]).committed = [] :=
  ⟨c4_batching.2.1 3 (init_state [] 0) "a" [7] rfl,
   (c4_batching.2.2.1 3 (init_state [] 0) "a" [7]).1,
   (c4_batching.2.2.1 3 (init_state [] 0) "a" [7]).2.2.1 (by decide)⟩

/-- C10: a present nested `date-time` string without the trailing `"Z"`
designator makes `parse_indexed_datetime` raise `ValueError`; that error
propagates out of `get_indexed_datetime` and `insert_item` (which has
already staged the DOI put) and aborts the whole run; a wholly absent
identifier, or an absent `indexed`/`date-time` field, is instead recovered
locally (skip, or insert without advancing the watermark). -/
theorem c10_bad_date_aborts :
    (∀ (E : Env) (s : String), ends_with_z s = false →
        parse_indexed_datetime E s = .error ()) ∧
    (∀ (E : Env) (item : Item) (s : String), item.indexed = .dtStr s →
        ends_with_z s = false → get_indexed_datetime E item = .error ()) ∧
    (∀ (E : Env) (freq : Nat) (lvl : Int) (st : InserterState) (item : Item)
        (doi : String) (s : String), item.doi = some doi →
        item.indexed = .dtStr s → ends_with_z s = false →
        Inserter.insert_item E freq lvl st item =
          .error (Inserter.insert freq st doi (E.compress lvl (E.mini item)))) ∧
    (∀ (E : Env) (freq : Nat) (lvl : Int) (pre : List Item) (item : Item)
        (rest : List Item) (st st1 stE : InserterState),
        run_items E freq lvl st pre = .ok st1 →
        Inserter.insert_item E freq lvl st1 item = .error stE →
        run_items E freq lvl st (pre ++ item :: rest) = .error stE) ∧
    (∀ (E : Env) (freq : Nat) (lvl : Int) (st : InserterState) (item : Item),
        item.doi = none → Inserter.insert_item E freq lvl st item = .ok st) ∧
    (∀ (E : Env) (freq : Nat) (lvl : Int) (st : InserterState) (item : Item)
        (doi : String), item.doi = some doi →
        (item.indexed = .absent ∨ item.indexed = .noDateTime) →
        Inserter.insert_item E freq lvl st item =
          .ok (Inserter.insert freq st doi (E.compress lvl (E.mini item)))) := by
  have h1 : ∀ (E : Env) (s : String), ends_with_z s = false →
      parse_indexed_datetime E s = .error () := by
    intro E s hz
    simp [parse_indexed_datetime, hz]
  have h2 : ∀ (E : Env) (item : Item) (s : String), item.indexed = .dtStr s →
      ends_with_z s = false → get_indexed_datetime E item = .error () := by
    intro E item s hidx hz
    obtain ⟨d, idx⟩ := item
    cases hidx
    show (match parse_indexed_datetime E s with
          | .ok t => Except.ok (some t)
          | .error e => Except.error e) = .error ()
    rw [h1 E s hz]
  refine ⟨h1, h2, ?_, ?_, ?_, ?_⟩
  · intro E freq lvl st item doi s hdoi hidx hz
    obtain ⟨d, idx⟩ := item
    cases hdoi
    cases hidx
    show (match get_indexed_datetime E ⟨some doi, .dtStr s⟩ with
          | .error _ => Except.error (Inserter.insert freq st doi
              (E.compress lvl (E.mini ⟨some doi, .dtStr s⟩)))
          | .ok none => Except.ok (Inserter.insert freq st doi
              (E.compress lvl (E.mini ⟨some doi, .dtStr s⟩)))
          | .ok (some t) =>
              if (Inserter.insert freq st doi
                    (E.compress lvl (E.mini ⟨some doi, .dtStr s⟩))).most_recent_indexed
                  < t then
                Except.ok { Inserter.insert freq
                    (Inserter.insert freq st doi
                      (E.compress lvl (E.mini ⟨some doi, .dtStr s⟩)))
                    reservedKey (E.compress lvl (E.isoEnc t)) with
                  most_recent_indexed := t }
              else Except.ok (Inserter.insert freq st doi
                  (E.compress lvl (E.mini ⟨some doi, .dtStr s⟩)))) = _
    rw [h2 E ⟨some doi, .dtStr s⟩ s rfl hz]
  · intro E freq lvl pre item rest st st1 stE hpre hitem
    rw [run_items_append, hpre]
    show run_items E freq lvl st1 (item :: rest) = .error stE
    rw [run_items_cons, hitem]
  · intro E freq lvl st item hdoi
    obtain ⟨d, idx⟩ := item
    cases hdoi
    rfl
  · intro E freq lvl st item doi hdoi hidx
    obtain ⟨d, idx⟩ := item
    cases hdoi
    rcases hidx with hidx | hidx <;> cases hidx <;> rfl

/-- C10 witness: on a concrete item whose `date-time` string `"abc"` lacks
the `"Z"` designator, a one-item run aborts with the DOI put staged but
nothing committed; a concrete item with no `indexed` field is instead
inserted with the run continuing. -/
theorem c10_bad_date_aborts_witness :
    run_items env1 5 (-1) (init_state [] 0) [⟨some "a", .dtStr "abc"⟩] =
      .error (Inserter.insert 5 (init_state [] 0) "a"
        (env1.compress (-1) (env1.mini ⟨some "a", .dtStr "abc"⟩))) ∧
    Inserter.insert_item env1 5 (-1) (init_state [] 0) ⟨none, .absent⟩ =
      .ok (init_state [] 0) :=
  ⟨c10_bad_date_aborts.2.2.2.1 env1 5 (-1) [] ⟨some "a", .dtStr "abc"⟩ []
      (init_state [] 0) (init_state [] 0) _ rfl
      (c10_bad_date_aborts.2.2.1 env1 5 (-1) (init_state [] 0)
        ⟨some "a", .dtStr "abc"⟩ "a" "abc" rfl rfl (by decide)),
   c10_bad_date_aborts.2.2.2.2.1 env1 5 (-1) (init_state [] 0)
      ⟨none, .absent⟩ rfl⟩

/-! Embedding of `db.py` `DBReader`. -/

/-- Embeds `DBReader._extract_value` on actual bytes: try to decompress,
and on `zlib.error` return the input unchanged (the legacy/uncompressed
fallback). -/
def extract_value (E : Env) (raw : Bytes) : Bytes :=
  match E.decompress raw with
  | some v => v
  | none => raw

/-- Embeds `DBReader.__getitem__`: a key matching the reserved `"__"`
prefix raises `KeyError`; otherwise the key is fetched (`txn.get` returns
`None` for an absent key, and `zlib.decompress(None)` then raises
`TypeError`, which the `except zlib.error` clause does not catch);
present values are decoded and parsed, a parse failure or a non-object
document raising `ValueError`. -/
def DBReader.getitem (E : Env) (store : Store) (key : String) :
    Except PyErr Item :=
  if starts_with_uu key then .error .keyError
  else
    match store_get store key with
    | none => .error .typeError
    | some raw =>
        match E.parse (extract_value E raw) with
        | some item => .ok item
        | none => .error .valueError

/-- Embeds `DBReader.__len__`: the total entry count minus the number of
special keys (always 1), whether or not the reserved entry exists. -/
def DBReader.len (store : Store) : Int :=
  (store.length : Int) - 1

/-- Embeds `DBReader.__iter__`/`__next__`: all keys in the store except
exact members of `_special_keys` (only the reserved watermark key). -/
def db_keys (store : Store) : List String :=
  (store_keys store).filter (fun k => k != reservedKey)

/-- Embeds `Mapping.values()` over a `DBReader`: `__getitem__` on each
yielded key, the first raised error propagating. -/
def db_values (E : Env) (store : Store) : Except PyErr (List Item) :=
  go (db_keys store)
where
  go : List String → Except PyErr (List Item)
    | [] => .ok []
    | k :: rest =>
        match DBReader.getitem E store k with
        | .error e => .error e
        | .ok item =>
            match go rest with
            | .error e => .error e
            | .ok l => .ok (item :: l)

/-- The fold body of `DBReader.get_most_recent_indexed`: raise
`ValueError` when a visible record has no extractable indexed datetime
(including the shape errors of `get_indexed_datetime`), else keep the
running maximum. -/
def scan_max (E : Env) : List Item → Option Int → Except PyErr (Option Int)
  | [], acc => .ok acc
  | item :: rest, acc =>
      match get_indexed_datetime E item with
      | .error _ => .error .valueError
      | .ok none => .error .valueError
      | .ok (some t) =>
          scan_max E rest
            (some (match acc with
                   | none => t
                   | some m => if m < t then t else m))

/-- Embeds `DBReader.get_most_recent_indexed`: scan all visible records,
raise `ValueError` when none were seen, and return the maximum indexed
datetime formatted with `strftime("%Y-%m-%d")` — that is, only its
calendar date (floor division by 1440 in the minute encoding). -/
def DBReader.get_most_recent_indexed (E : Env) (store : Store) :
    Except PyErr Int :=
  match db_values E store with
  | .error e => .error e
  | .ok vals =>
      match scan_max E vals none with
      | .error e => .error e
      | .ok none => .error .valueError
      | .ok (some m) => .ok (m.fdiv 1440)

/-- C3 (code bug evidence): a reserved-pattern identifier always fails as
`KeyError`, whether or not the reserved entry exists — but an identifier
simply absent from the store fails with `TypeError`, not `KeyError`:
`txn.get` returns `None` and `zlib.decompress(None)` raises `TypeError`,
which the `except zlib.error` clause of `_extract_value` does not catch.
This breaks the `Mapping` contract `DBReader` declares (its inherited
`get`/`__contains__` rely on `KeyError` for missing keys). -/
theorem c3_get_absent_raises_type_error :
    DBReader.getitem env1 [] "a" = .error PyErr.typeError ∧
    PyErr.typeError ≠ PyErr.keyError ∧
    DBReader.getitem env1 [(reservedKey, [0, 3])] reservedKey =
      .error PyErr.keyError ∧
    DBReader.getitem env1 [] "__anything" = .error PyErr.keyError :=
  ⟨rfl, by decide, rfl, rfl⟩

/-- C5: the codec round-trip. Decoding is `DBReader._extract_value`
(`extract_value` here); encoding is `zlib.compress` at any level, as
performed by `Inserter.insert_item`. Under the zlib contract — its
decompression inverts its compression — decoding an encoded byte string
returns it unchanged; and any byte string that is not validly-compressed
(decompression raises `zlib.error`) is returned unchanged by the fallback
branch. -/
theorem c5_codec_round_trip (E : Env) :
    (∀ (lvl : Int) (x : Bytes), E.decompress (E.compress lvl x) = some x →
        extract_value E (E.compress lvl x) = x) ∧
    (∀ y : Bytes, E.decompress y = none → extract_value E y = y) := by
  constructor
  · intro lvl x h
    unfold extract_value
    rw [h]
  · intro y h
    unfold extract_value
    rw [h]

/-- C5 witness: the round-trip theorem applied to the concrete codec of
`env1` at level -1 on the byte string `[5]`, and the fallback on the
never-compressed byte string `[1]`. -/
theorem c5_codec_round_trip_witness :
    extract_value env1 (env1.compress (-1) [5]) = [5] ∧
    extract_value env1 [1] = [1] :=
  ⟨(c5_codec_round_trip env1).1 (-1) [5] rfl,
   (c5_codec_round_trip env1).2 [1] rfl⟩

/-! Embedding of `items.py` `insert_item` (the policy-carrying writer used
by the update path; the bulk/skip policy is `overwrite=False`). -/

/-- Embeds `items.insert_item`: skip (with a warning) an item without a
`"DOI"`, returning `("", False)`; otherwise `txn.put` the compressed bytes
under `overwrite`. When the put reports failure (duplicate key under
`overwrite=False`), the code raises `ValueError("Unexpected response")`
when `overwrite` is `False`, and logs the "already present ... not
overwriting" warning only when `overwrite` is `True`. -/
def items_insert_item (E : Env) (lvl : Int) (overwrite : Bool)
    (store : Store) (item : Item) : Except Unit (Store × String × Bool) :=
  match item.doi with
  | none => .ok (store, "", false)
  | some doi =>
      match lmdb_put store doi (E.compress lvl (E.mini item)) overwrite with
      | (store1, success) =>
          if success then .ok (store1, doi, success)
          else if overwrite = false then .error ()
          else .ok (store1, doi, success)

/-- C2 (code bug evidence): under the skip policy (`overwrite=False`), a
record whose identifier already exists makes `items.insert_item` raise
`ValueError` instead of warning and continuing — the no-op/warn handling
sits in the unreachable `overwrite=True` failure branch, contradicting
its own log message. With `overwrite=True` the same duplicate is silently
replaced. -/
theorem c2_skip_policy_raises :
    items_insert_item env1 (-1) false [("a", [9])] ⟨some "a", .absent⟩ =
      .error () ∧
    items_insert_item env1 (-1) true [("a", [9])] ⟨some "a", .absent⟩ =
      .ok ([("a", [0, 1])], "a", true) :=
  ⟨rfl, rfl⟩

/-! Embedding of `file.py` `FileSource`. -/

/-- Embeds `FileSource.file_num_from_path`:
`int(path.name[: -len(".json.gz")])`, `none` when the stem is not a plain
digit string (Python raises `ValueError` at construction then). -/
def file_num_from_path (name : String) : Option Nat :=
  parse_int (drop_right_n name ".json.gz".length)

/-- The sort key actually used for a segment name; for the valid segment
directories the claims quantify over, every name parses and the default
never fires. -/
def file_num_key (name : String) : Nat :=
  (file_num_from_path name).getD 0

/-- Embeds the `FileSource` constructor:
`sorted(dir.glob("*.json.gz"), key=file_num_from_path)` — a stable sort by
the integer encoded in the filename (insertion sort is stable, like
Python's `sorted`). -/
def file_source_gz_paths (names : List String) : List String :=
  List.insertionSort (fun a b => file_num_key a ≤ file_num_key b) names

/-- Embeds `FileSource.iter_unfiltered_items_data`: walk the sorted
segment list and skip (`continue`) every segment whose integer is below
`start_from_file_num`; the yielded sequence is the remaining names in
order. -/
def file_source_iter (names : List String) (start : Nat) : List String :=
  (file_source_gz_paths names).filter
    (fun n => !decide (file_num_key n < start))

/-- C6: the bulk `FileSource` processes segments in ascending order of the
integer encoded in the filename (numeric, never lexicographic: the
concrete directory 0/2/9/10 comes out 0, 2, 9, 10, where the lexicographic
order would put "10" before "2"), and a resume file-number skips exactly
the segments whose integer is below the threshold (the processed sequence
is a permutation of precisely the qualifying segments). -/
theorem c6_segment_order (names : List String) (start : Nat) :
    List.Pairwise (fun a b => file_num_key a ≤ file_num_key b)
      (file_source_iter names start) ∧
    (file_source_iter names start).Perm
      (names.filter (fun n => !decide (file_num_key n < start))) ∧
    file_source_iter ["10.json.gz", "2.json.gz", "0.json.gz", "9.json.gz"] 0 =
      ["0.json.gz", "2.json.gz", "9.json.gz", "10.json.gz"] ∧
    file_source_iter ["0.json.gz", "2.json.gz", "9.json.gz", "10.json.gz"] 1 =
      ["2.json.gz", "9.json.gz", "10.json.gz"] := by
  refine ⟨?_, ?_, ?_, ?_⟩
  · haveI : IsTotal String (fun a b => file_num_key a ≤ file_num_key b) :=
      ⟨fun a b => Nat.le_total _ _⟩
    haveI : IsTrans String (fun a b => file_num_key a ≤ file_num_key b) :=
      ⟨fun a b c hab hbc => Nat.le_trans hab hbc⟩
    exact List.Pairwise.sublist (List.filter_sublist _)
      (List.sorted_insertionSort _ names)
  · exact List.Perm.filter _ (List.perm_insertionSort _ names)
  · rfl
  · rfl

/-! Embedding of `web.py` `WebSource.iter_unfiltered_items_data`. -/

/-- The part of a well-formed API response message that the pagination
loop inspects: the page's item array and the `next-cursor` token. -/
structure WebPage where
  items : List Bytes
  nextCursor : String

/-- Embeds the cursor loop of `WebSource.iter_unfiltered_items_data`:
starting from the wildcard cursor, each iteration issues one request for
the current cursor, yields the page, and — only when the page had at
least one item — reads the `next-cursor` token and continues; a zero-item
page breaks out of the loop before the token is read. The function
returns the list of cursors actually requested; `fuel` bounds the
unrolling (the Python loop has no intrinsic bound). -/
def web_requests (respond : String → WebPage) : Nat → String → List String
  | 0, _ => []
  | fuel + 1, cursor =>
      cursor ::
        (if 0 < (respond cursor).items.length then
          web_requests respond fuel (respond cursor).nextCursor
        else [])

/-- The cursor chain the remote defines: request i+1 uses the
`next-cursor` of response i, starting from the wildcard token. -/
def cursor_chain (respond : String → WebPage) : Nat → String
  | 0 => "*"
  | i + 1 => (respond (cursor_chain respond i)).nextCursor

theorem web_requests_eq_chain (respond : String → WebPage) (k : Nat) :
    ∀ (fuel j : Nat), j ≤ k →
      (∀ i, j ≤ i → i < k → 0 < (respond (cursor_chain respond i)).items.length) →
      (respond (cursor_chain respond k)).items.length = 0 →
      k - j < fuel →
      web_requests respond fuel (cursor_chain respond j) =
        (List.range (k + 1 - j)).map (fun i => cursor_chain respond (j + i)) := by
  intro fuel
  induction fuel with
  | zero => intro j _ _ _ hf; omega
  | succ f ih =>
      intro j hjk hpos hzero hf
      by_cases hj : j = k
      · rw [hj]
        unfold web_requests
        rw [if_neg (by rw [hzero]; exact lt_irrefl 0)]
        rw [show k + 1 - k = 1 from by omega]
        rfl
      · have hjlt : j < k := lt_of_le_of_ne hjk hj
        unfold web_requests
        rw [if_pos (hpos j (le_refl j) hjlt)]
        have hnext : (respond (cursor_chain respond j)).nextCursor =
            cursor_chain respond (j + 1) := rfl
        rw [hnext, ih (j + 1) hjlt
          (fun i hi1 hi2 => hpos i (by omega) hi2) hzero (by omega),
          show k + 1 - (j + 1) = k - j from by omega,
          show k + 1 - j = (k - j) + 1 from by omega,
          List.range_succ_eq_map, List.map_cons, List.map_map]
        refine List.cons_eq_cons.mpr ⟨by simp, ?_⟩
        apply List.map_congr_left
        intro i _
        show cursor_chain respond (j + 1 + i) = cursor_chain respond (j + (i + 1))
        congr 1
        omega

/-- C7: a response page with zero items ends the incremental stream. If
the k-th page of the cursor chain is the first with zero items, the loop
issues exactly the requests for chain positions 0..k and no further one —
in particular the zero-item page's `next-cursor` token (chain position
k+1) is never requested: it is discarded. -/
theorem c7_empty_page_stops (respond : String → WebPage) (k fuel : Nat)
    (hpos : ∀ i, i < k → 0 < (respond (cursor_chain respond i)).items.length)
    (hzero : (respond (cursor_chain respond k)).items.length = 0)
    (hfuel : k < fuel) :
    web_requests respond fuel "*" =
      (List.range (k + 1)).map (cursor_chain respond) := by
  have h := web_requests_eq_chain respond k fuel 0 (Nat.zero_le k)
    (fun i _ hik => hpos i hik) hzero (by omega)
  rw [show cursor_chain respond 0 = "*" from rfl] at h
  rw [h]
  simp

/-- C7 witness: a concrete remote whose second page (cursor `"c1"`) is
empty; with fuel 5 the loop issues exactly the two requests `"*"`, `"c1"`
and never requests that page's next-cursor `"c2"`. -/
theorem c7_empty_page_stops_witness :
    web_requests
      (fun c => if c = "*" then ⟨[[1]], "c1"⟩
        else if c = "c1" then ⟨[], "c2"⟩ else ⟨[[9]], "zz"⟩) 5 "*" =
      ["*", "c1"] := by
  have h := c7_empty_page_stops
    (fun c => if c = "*" then ⟨[[1]], "c1"⟩
      else if c = "c1" then ⟨[], "c2"⟩ else ⟨[[9]], "zz"⟩) 1 5
    (fun i hi => by
      have hi0 : i = 0 := by omega
      rw [hi0]
      decide) (by decide) (by decide)
  rw [h]
  rfl

/-! Read-back machinery for ingest-then-read (claim C8). -/

/-- `insert_item` preserves transaction well-formedness. -/
theorem insert_item_txnok (E : Env) (freq : Nat) (lvl : Int)
    (st : InserterState) (item : Item) (st1 : InserterState)
    (h : Inserter.insert_item E freq lvl st item = .ok st1)
    (htxn : TxnOk st) : TxnOk st1 := by
  unfold Inserter.insert_item at h
  split at h
  · cases h; exact htxn
  · split at h
    · simp at h
    · cases h; exact insert_txnok _ _ _ _ htxn
    · split at h
      · cases h
        rw [txnok_set_watermark]
        exact insert_txnok _ _ _ _ (insert_txnok _ _ _ _ htxn)
      · cases h; exact insert_txnok _ _ _ _ htxn

/-- One `insert_item` step, view of an arbitrary non-reserved key: it is
overwritten when the item carries that DOI, untouched otherwise. -/
theorem insert_item_get (E : Env) (freq : Nat) (lvl : Int)
    (st : InserterState) (item : Item) (st1 : InserterState) (key : String)
    (h : Inserter.insert_item E freq lvl st item = .ok st1)
    (htxn : TxnOk st) (hkey : key ≠ reservedKey) :
    store_get (merge_all st1) key =
      if item.doi = some key then some (E.compress lvl (E.mini item))
      else store_get (merge_all st) key := by
  unfold Inserter.insert_item at h
  split at h
  · rename_i hdoi
    cases h
    rw [if_neg (by rw [hdoi]; exact fun hh => Option.noConfusion hh)]
  · rename_i doi hdoi
    split at h
    · simp at h
    · cases h
      rw [hdoi, insert_merge_all freq st _ _ htxn, store_get_put]
      by_cases hdk : doi = key
      · rw [if_pos hdk, if_pos (by rw [hdk])]
      · rw [if_neg hdk, if_neg (by intro hh; exact hdk (Option.some.inj hh))]
    · split at h
      · cases h
        rw [hdoi, merge_all_set_watermark,
          insert_merge_all freq _ _ _ (insert_txnok _ _ _ _ htxn),
          store_get_put, if_neg (Ne.symm hkey),
          insert_merge_all freq st _ _ htxn, store_get_put]
        by_cases hdk : doi = key
        · rw [if_pos hdk, if_pos (by rw [hdk])]
        · rw [if_neg hdk, if_neg (by intro hh; exact hdk (Option.some.inj hh))]
      · cases h
        rw [hdoi, insert_merge_all freq st _ _ htxn, store_get_put]
        by_cases hdk : doi = key
        · rw [if_pos hdk, if_pos (by rw [hdk])]
        · rw [if_neg hdk, if_neg (by intro hh; exact hdk (Option.some.inj hh))]

/-- The last-write-wins fold that a run performs on a fixed non-reserved
key. -/
def key_writes (E : Env) (lvl : Int) (key : String)
    (items : List Item) (acc : Option Bytes) : Option Bytes :=
  items.foldl
    (fun acc item =>
      if item.doi = some key then some (E.compress lvl (E.mini item))
      else acc) acc

/-- A completed run, view of an arbitrary non-reserved key: the final
merged value is the last write to that key, defaulting to the prior
value. -/
theorem run_items_get (E : Env) (freq : Nat) (lvl : Int) (items : List Item) :
    ∀ (st st1 : InserterState) (key : String),
      run_items E freq lvl st items = .ok st1 →
      TxnOk st → key ≠ reservedKey →
      store_get (merge_all st1) key =
        key_writes E lvl key items (store_get (merge_all st) key) := by
  induction items with
  | nil =>
      intro st st1 key h _ _
      cases h
      rfl
  | cons item rest ih =>
      intro st st1 key h htxn hkey
      rw [run_items_cons] at h
      cases hstep : Inserter.insert_item E freq lvl st item with
      | error stE => rw [hstep] at h; cases h
      | ok stm =>
          rw [hstep] at h
          rw [ih stm st1 key h (insert_item_txnok E freq lvl st item stm hstep htxn) hkey]
          unfold key_writes
          rw [List.foldl_cons,
            insert_item_get E freq lvl st item stm key hstep htxn hkey]

/-- A key no item carries is never written. -/
theorem key_writes_no_match (E : Env) (lvl : Int) (key : String)
    (items : List Item) :
    ∀ acc, (∀ item ∈ items, item.doi ≠ some key) →
      key_writes E lvl key items acc = acc := by
  induction items with
  | nil => intro acc _; rfl
  | cons item rest ih =>
      intro acc hno
      unfold key_writes
      rw [List.foldl_cons,
        if_neg (hno item (List.mem_cons_self item rest))]
      exact ih acc fun it hit => hno it (List.mem_cons_of_mem item hit)

/-- When every item carrying the key is the same item, the fold settles on
that item's encoded bytes once the item has been seen. -/
theorem key_writes_settled (E : Env) (lvl : Int) (key : String)
    (items : List Item) (it0 : Item) :
    (∀ item ∈ items, item.doi = some key → item = it0) →
      key_writes E lvl key items (some (E.compress lvl (E.mini it0))) =
        some (E.compress lvl (E.mini it0)) := by
  induction items with
  | nil => intro _; rfl
  | cons item rest ih =>
      intro huni
      unfold key_writes
      rw [List.foldl_cons]
      by_cases hm : item.doi = some key
      · rw [if_pos hm, huni item (List.mem_cons_self item rest) hm]
        exact ih fun it hit h => huni it (List.mem_cons_of_mem item hit) h
      · rw [if_neg hm]
        exact ih fun it hit h => huni it (List.mem_cons_of_mem item hit) h

/-- A key carried by exactly one item reads back as that item's encoded
bytes. -/
theorem key_writes_unique (E : Env) (lvl : Int) (key : String)
    (items : List Item) (it0 : Item) :
    ∀ acc, it0 ∈ items → it0.doi = some key →
      (∀ item ∈ items, item.doi = some key → item = it0) →
      key_writes E lvl key items acc =
        some (E.compress lvl (E.mini it0)) := by
  induction items with
  | nil => intro acc h0 _ _; simp at h0
  | cons item rest ih =>
      intro acc h0 hd huni
      unfold key_writes
      rw [List.foldl_cons]
      by_cases hm : item.doi = some key
      · rw [if_pos hm, huni item (List.mem_cons_self item rest) hm]
        exact key_writes_settled E lvl key rest it0
          fun it hit h => huni it (List.mem_cons_of_mem item hit) h
      · have h0r : it0 ∈ rest := by
          rcases List.mem_cons.mp h0 with h | h
          · exact absurd (h ▸ hd) hm
          · exact h
        rw [if_neg hm]
        exact ih acc h0r hd
          fun it hit h => huni it (List.mem_cons_of_mem item hit) h

/-- The fold never discards a present value. -/
theorem key_writes_isSome_of_isSome (E : Env) (lvl : Int) (key : String)
    (items : List Item) :
    ∀ acc : Option Bytes, acc.isSome →
      (key_writes E lvl key items acc).isSome := by
  induction items with
  | nil => intro acc h; exact h
  | cons item rest ih =>
      intro acc h
      unfold key_writes
      rw [List.foldl_cons]
      by_cases hm : item.doi = some key
      · rw [if_pos hm]; exact ih _ rfl
      · rw [if_neg hm]; exact ih _ h

/-- The fold produces a value iff some item carried the key or a value was
already there. -/
theorem key_writes_isSome_iff (E : Env) (lvl : Int) (key : String)
    (items : List Item) :
    ∀ acc : Option Bytes,
      (key_writes E lvl key items acc).isSome ↔
        (∃ item ∈ items, item.doi = some key) ∨ acc.isSome := by
  induction items with
  | nil => intro acc; simp [key_writes]
  | cons item rest ih =>
      intro acc
      unfold key_writes
      rw [List.foldl_cons]
      by_cases hm : item.doi = some key
      · rw [if_pos hm]
        constructor
        · intro _
          exact Or.inl ⟨item, List.mem_cons_self item rest, hm⟩
        · intro _
          exact key_writes_isSome_of_isSome E lvl key rest _ rfl
      · rw [if_neg hm]
        rw [show (List.foldl (fun acc item =>
            if item.doi = some key then some (E.compress lvl (E.mini item))
            else acc) acc rest) = key_writes E lvl key rest acc from rfl]
        rw [ih acc]
        constructor
        · rintro (⟨it, hit, h⟩ | h)
          · exact Or.inl ⟨it, List.mem_cons_of_mem item hit, h⟩
          · exact Or.inr h
        · rintro (⟨it, hit, h⟩ | h)
          · rcases List.mem_cons.mp hit with heq | hmem
            · exact absurd (heq ▸ h) hm
            · exact Or.inl ⟨it, hmem, h⟩
          · exact Or.inr h

/-- With unique identifiers, the only item carrying a given DOI is
itself. -/
theorem nodup_doi_unique (items : List Item)
    (huniq : (items.filterMap Item.doi).Nodup) (it0 : Item)
    (h0 : it0 ∈ items) (d : String) (hd : it0.doi = some d) :
    ∀ item ∈ items, item.doi = some d → item = it0 := by
  induction items with
  | nil => simp at h0
  | cons item rest ih =>
      intro it1 h1 hd1
      have hnd : (List.filterMap Item.doi (item :: rest)).Nodup := huniq
      rcases List.mem_cons.mp h1 with h1e | h1r
      · subst h1e
        rcases List.mem_cons.mp h0 with h0e | h0r
        · rw [h0e]
        · exfalso
          have hmem : d ∈ List.filterMap Item.doi rest :=
            List.mem_filterMap.mpr ⟨it0, h0r, hd⟩
          rw [List.filterMap_cons, hd1] at hnd
          exact (List.nodup_cons.mp hnd).1 hmem
      · rcases List.mem_cons.mp h0 with h0e | h0r
        · exfalso
          have hmem : d ∈ List.filterMap Item.doi rest :=
            List.mem_filterMap.mpr ⟨it1, h1r, hd1⟩
          have hdi : item.doi = some d := by rw [← h0e]; exact hd
          rw [List.filterMap_cons, hdi] at hnd
          exact (List.nodup_cons.mp hnd).1 hmem
        · have hndr : (List.filterMap Item.doi rest).Nodup := by
            rw [List.filterMap_cons] at hnd
            cases hdoi : item.doi with
            | none => rw [hdoi] at hnd; exact hnd
            | some d0 => rw [hdoi] at hnd; exact (List.nodup_cons.mp hnd).2
          exact ih hndr h0r it1 h1r hd1

/-- Uniqueness of durable keys (maintained because every write is an
upsert). -/
def StoreOk (st : InserterState) : Prop :=
  (store_keys (merge_all st)).Nodup

theorem insert_storeok (freq : Nat) (st : InserterState) (k : String)
    (v : Bytes) (htxn : TxnOk st) (hst : StoreOk st) :
    StoreOk (Inserter.insert freq st k v) := by
  unfold StoreOk
  rw [insert_merge_all freq st k v htxn]
  exact store_put_nodup _ k v hst

theorem insert_item_storeok (E : Env) (freq : Nat) (lvl : Int)
    (st : InserterState) (item : Item) (st1 : InserterState)
    (h : Inserter.insert_item E freq lvl st item = .ok st1)
    (htxn : TxnOk st) (hst : StoreOk st) : StoreOk st1 := by
  unfold Inserter.insert_item at h
  split at h
  · cases h; exact hst
  · split at h
    · simp at h
    · cases h; exact insert_storeok _ _ _ _ htxn hst
    · split at h
      · cases h
        show StoreOk (Inserter.insert _ _ _ _)
        exact insert_storeok _ _ _ _ (insert_txnok _ _ _ _ htxn)
          (insert_storeok _ _ _ _ htxn hst)
      · cases h; exact insert_storeok _ _ _ _ htxn hst

theorem run_items_storeok (E : Env) (freq : Nat) (lvl : Int)
    (items : List Item) :
    ∀ (st st1 : InserterState),
      run_items E freq lvl st items = .ok st1 →
      TxnOk st → StoreOk st → StoreOk st1 := by
  induction items with
  | nil => intro st st1 h _ hst; cases h; exact hst
  | cons item rest ih =>
      intro st st1 h htxn hst
      rw [run_items_cons] at h
      cases hstep : Inserter.insert_item E freq lvl st item with
      | error stE => rw [hstep] at h; cases h
      | ok stm =>
          rw [hstep] at h
          exact ih stm st1 h
            (insert_item_txnok E freq lvl st item stm hstep htxn)
            (insert_item_storeok E freq lvl st item stm hstep htxn hst)

theorem length_filterMap_doi (items : List Item)
    (h : ∀ it ∈ items, it.doi.isSome) :
    (items.filterMap Item.doi).length = items.length := by
  induction items with
  | nil => rfl
  | cons item rest ih =>
      rw [List.filterMap_cons]
      cases hdoi : item.doi with
      | none =>
          exact absurd (hdoi ▸ h item (List.mem_cons_self item rest)) (by simp)
      | some d =>
          rw [List.length_cons, List.length_cons,
            ih fun it hit => h it (List.mem_cons_of_mem item hit)]

theorem not_uu_ne_reserved (d : String) (h : starts_with_uu d = false) :
    d ≠ reservedKey := by
  intro hd
  rw [hd] at h
  exact absurd h (by decide)

/-- Claim C8 as stated: ingest-then-read gives back every record, and
`length()` equals the number of unique accepted identifiers. -/
def c8_claim_as_stated (E : Env) (freq : Nat) (lvl : Int)
    (items : List Item) : Prop :=
  ∀ store, run_ingest E freq lvl items = .ok store →
    (∀ it ∈ items, it.doi.isSome) →
    (items.filterMap Item.doi).Nodup →
    DBReader.len store = ((items.filterMap Item.doi).length : Int)

/-- C8 (counterexample to the claim as stated): ingesting one record with
a DOI but no indexed timestamp stores one entry and never writes the
reserved watermark entry; `__len__` still subtracts the fixed reserved-key
count 1, so `length()` returns 0 although one unique identifier was
accepted. -/
theorem c8_counterexample :
    ¬ c8_claim_as_stated env1 5 (-1) [⟨some "a", .absent⟩] := by
  intro h
  have h2 := h [("a", [0, 1])] rfl
    (by intro it hit; simp at hit; rw [hit]; rfl) (by decide)
  rw [show DBReader.len [("a", [0, 1])] = (0 : Int) from rfl] at h2
  rw [show ((List.filterMap Item.doi [⟨some "a", .absent⟩]).length : Int)
      = (1 : Int) from rfl] at h2
  cases h2

/-- C8 (amended): for a completed ingestion of unique-identifier records
into an empty store — identifiers never matching the reserved `"__"`
prefix, and at least one record carrying an indexed timestamp above the
floor, so that the reserved watermark entry exists — reading back yields
`get(id) = ` the parsed original for every record, and `length()` equals
the count of unique accepted identifiers (total entries minus the fixed
reserved-key count 1). Without the watermark entry, `length()`
undercounts by one (see `c8_counterexample`). The zlib and simdjson
collaborators are assumed to round-trip on the ingested records. -/
theorem c8_ingest_then_read (E : Env) (freq : Nat) (lvl : Int)
    (items : List Item) (store : Store)
    (hok : run_ingest E freq lvl items = .ok store)
    (hdois : ∀ it ∈ items, ∃ d, it.doi = some d ∧ starts_with_uu d = false)
    (huniq : (items.filterMap Item.doi).Nodup)
    (hzlib : ∀ it ∈ items,
      E.decompress (E.compress lvl (E.mini it)) = some (E.mini it))
    (hparse : ∀ it ∈ items, E.parse (E.mini it) = some it)
    (hwm : watermarkFloor < max_accepted E items) :
    (∀ it ∈ items, ∀ d, it.doi = some d →
      DBReader.getitem E store d = .ok it) ∧
    DBReader.len store = (items.length : Int) := by
  have hres : ∀ it ∈ items, it.doi ≠ some reservedKey := by
    intro it hit hcon
    obtain ⟨d, hd, hud⟩ := hdois it hit
    rw [hd] at hcon
    exact not_uu_ne_reserved d hud (Option.some.inj hcon)
  unfold run_ingest at hok
  cases hrun : run_items E freq lvl (init_state [] watermarkFloor) items with
  | error stE => rw [hrun] at hok; cases hok
  | ok st1 =>
      rw [hrun] at hok
      cases hok
      have htxn0 : TxnOk (init_state [] watermarkFloor) :=
        txnok_init [] watermarkFloor
      have hmerge0 : merge_all (init_state [] watermarkFloor) = [] := rfl
      have hget : ∀ it ∈ items, ∀ d, it.doi = some d →
          store_get (merge_all st1) d = some (E.compress lvl (E.mini it)) := by
        intro it hit d hd
        obtain ⟨d0, hd0, hud0⟩ := hdois it hit
        have hdd : d0 = d := by
          rw [hd0] at hd
          exact Option.some.inj hd
        subst hdd
        have hdne : d0 ≠ reservedKey := not_uu_ne_reserved d0 hud0
        rw [run_items_get E freq lvl items _ st1 d0 hrun htxn0 hdne,
          hmerge0]
        exact key_writes_unique E lvl d0 items it _ hit hd
          (nodup_doi_unique items huniq it hit d0 hd)
      constructor
      · intro it hit d hd
        obtain ⟨d0, hd0, hud0⟩ := hdois it hit
        have hdd : d0 = d := by
          rw [hd0] at hd
          exact Option.some.inj hd
        subst hdd
        have hev : extract_value E (E.compress lvl (E.mini it)) = E.mini it := by
          unfold extract_value
          rw [hzlib it hit]
        unfold DBReader.getitem
        rw [if_neg (by rw [hud0]; exact Bool.false_ne_true),
          inserter_exit_eq_merge_all, hget it hit d0 hd]
        split
        · rename_i heq
          cases heq
        · rename_i raw1 heq
          obtain rfl := Option.some.inj heq
          split
          · rename_i item1 heq2
            rw [hev, hparse it hit] at heq2
            rw [Option.some.inj heq2]
          · rename_i heq2
            rw [hev, hparse it hit] at heq2
            cases heq2
      · -- length: the key set is exactly the DOIs plus the reserved key
        have hwmk : store_get (merge_all st1) reservedKey =
            some (E.compress lvl (E.isoEnc st1.most_recent_indexed)) := by
          obtain ⟨_, _, hw, hif⟩ :=
            run_items_watermark E freq lvl items _ st1 hrun htxn0 hres
          have hw1 : st1.most_recent_indexed = max_accepted E items := by
            rw [hw]; rfl
          have hne : st1.most_recent_indexed ≠ watermarkFloor := by
            rw [hw1]; exact ne_of_gt hwm
          rw [if_neg (by simpa [init_state] using hne)] at hif
          exact hif
        have hnodup1 : (store_keys (merge_all st1)).Nodup :=
          run_items_storeok E freq lvl items _ st1 hrun htxn0
            (by unfold StoreOk; rw [hmerge0]; exact List.nodup_nil)
        have hnodup2 : (items.filterMap Item.doi ++ [reservedKey]).Nodup := by
          refine List.Nodup.append huniq (List.nodup_singleton _) ?_
          intro a ha hb
          rw [List.mem_singleton] at hb
          obtain ⟨it, hit, hd⟩ := List.mem_filterMap.mp ha
          obtain ⟨d0, hd0, hud0⟩ := hdois it hit
          rw [hd0] at hd
          exact not_uu_ne_reserved d0 hud0
            (by rw [Option.some.inj hd]; exact hb)
        have hmem : ∀ a, a ∈ store_keys (merge_all st1) ↔
            a ∈ items.filterMap Item.doi ++ [reservedKey] := by
          intro a
          by_cases ha : a = reservedKey
          · subst ha
            simp only [List.mem_append, List.mem_singleton, or_true,
              iff_true]
            rw [mem_store_keys_iff, hwmk]
            rfl
          · rw [mem_store_keys_iff,
              run_items_get E freq lvl items _ st1 a hrun htxn0 ha, hmerge0,
              key_writes_isSome_iff]
            simp only [List.mem_append, List.mem_singleton, ha, or_false]
            rw [List.mem_filterMap]
            constructor
            · rintro (⟨it, hit, hd⟩ | hfalse)
              · exact ⟨it, hit, hd⟩
              · exact absurd hfalse (by simp)
            · rintro ⟨it, hit, hd⟩
              exact Or.inl ⟨it, hit, hd⟩
        have hperm : (store_keys (merge_all st1)).Perm
            (items.filterMap Item.doi ++ [reservedKey]) :=
          (List.perm_ext_iff_of_nodup hnodup1 hnodup2).mpr hmem
        have hlen : (merge_all st1).length = items.length + 1 := by
          have h1 : (store_keys (merge_all st1)).length =
              (items.filterMap Item.doi ++ [reservedKey]).length :=
            hperm.length_eq
          rw [List.length_append, List.length_singleton,
            length_filterMap_doi items
              (fun it hit => by
                obtain ⟨d, hd, _⟩ := hdois it hit
                rw [hd]; rfl)] at h1
          rw [show (store_keys (merge_all st1)).length =
              (merge_all st1).length from List.length_map _ _] at h1
          exact h1
        unfold DBReader.len
        rw [inserter_exit_eq_merge_all, hlen]
        push_cast
        ring

/-- C8 witness: the amended theorem on a concrete one-record ingestion
(DOI `"a"`, indexed minute 3): `get("a")` returns the parsed original and
`length()` is 1. -/
theorem c8_ingest_then_read_witness :
    DBReader.getitem env1 [("a", [0, 1]), (reservedKey, [0, 3])] "a" =
      .ok ⟨some "a", .dtStr "abcZ"⟩ ∧
    DBReader.len [("a", [0, 1]), (reservedKey, [0, 3])] = (1 : Int) := by
  have h := c8_ingest_then_read env1 5 (-1) [⟨some "a", .dtStr "abcZ"⟩]
    [("a", [0, 1]), (reservedKey, [0, 3])] rfl
    (by intro it hit; simp at hit; rw [hit]; exact ⟨"a", rfl, rfl⟩)
    (by decide)
    (by intro it hit; simp at hit; rw [hit]; rfl)
    (by intro it hit; simp at hit; rw [hit]; rfl)
    (by decide)
  exact ⟨h.1 ⟨some "a", .dtStr "abcZ"⟩ (by simp) "a" rfl, h.2⟩

/-! Claim C9: the scan-based watermark recomputation. -/

/-- The indexed timestamp a record contributes to the scan, when its
extraction neither raises nor comes back empty. -/
def item_ts (E : Env) (item : Item) : Option Int :=
  match get_indexed_datetime E item with
  | .ok (some t) => some t
  | _ => none

/-- The accumulator update of the scan loop is just `max`. -/
theorem scan_update_eq_max (m t : Int) :
    (if m < t then t else m) = max m t := by
  by_cases h : m < t
  · rw [if_pos h, max_eq_right (le_of_lt h)]
  · rw [if_neg h, max_eq_left (le_of_not_lt h)]

/-- On records that all carry a timestamp, the scan from a seeded
accumulator computes the fold of `max`. -/
theorem scan_max_seeded (E : Env) (vals : List Item) :
    ∀ m : Int, (∀ it ∈ vals, (item_ts E it).isSome) →
      scan_max E vals (some m) =
        .ok (some ((vals.filterMap (item_ts E)).foldl max m)) := by
  induction vals with
  | nil => intro m _; rfl
  | cons item rest ih =>
      intro m hts
      have hhead := hts item (List.mem_cons_self item rest)
      cases hcase : item_ts E item with
      | none => rw [hcase] at hhead; cases hhead
      | some t =>
          have hidx : get_indexed_datetime E item = .ok (some t) := by
            unfold item_ts at hcase
            split at hcase
            · rename_i t0 heq
              rw [Option.some.inj hcase] at heq
              exact heq
            · cases hcase
          unfold scan_max
          rw [hidx]
          show scan_max E rest (some (if m < t then t else m)) =
            Except.ok (some (List.foldl max m
              (List.filterMap (item_ts E) (item :: rest))))
          rw [ih (if m < t then t else m)
            (fun it hit => hts it (List.mem_cons_of_mem item hit))]
          rw [List.filterMap_cons, hcase, List.foldl_cons,
            scan_update_eq_max]

/-- A record without an extractable timestamp anywhere in the scan makes
the whole scan raise `ValueError`. -/
theorem scan_max_missing (E : Env) (vals : List Item) :
    ∀ acc : Option Int, (∃ it ∈ vals, item_ts E it = none) →
      scan_max E vals acc = .error PyErr.valueError := by
  induction vals with
  | nil => rintro acc ⟨it, hmem, _⟩; simp at hmem
  | cons item rest ih =>
      rintro acc ⟨it, hmem, hnone⟩
      unfold scan_max
      cases hidx : get_indexed_datetime E item with
      | error e => rfl
      | ok o =>
          cases o with
          | none => rfl
          | some t =>
              show scan_max E rest
                (some (match acc with
                       | none => t
                       | some m => if m < t then t else m)) =
                .error PyErr.valueError
              rcases List.mem_cons.mp hmem with heq | hmem1
              · exfalso
                rw [heq] at hnone
                unfold item_ts at hnone
                rw [hidx] at hnone
                cases hnone
              · exact ih _ ⟨it, hmem1, hnone⟩

/-- Unfolding of the scan once the visible records are known. -/
theorem get_most_recent_indexed_ok (E : Env) (store : Store)
    (vals : List Item) (h : db_values E store = .ok vals) :
    DBReader.get_most_recent_indexed E store =
      match scan_max E vals none with
      | .error e => .error e
      | .ok none => .error PyErr.valueError
      | .ok (some m) => .ok (m.fdiv 1440) := by
  unfold DBReader.get_most_recent_indexed
  rw [h]

/-- Claim C9 as stated: the scan returns the true maximum
indexed-timestamp over the visible records, as a timestamp string — read
back as a timestamp, the `YYYY-MM-DD` result denotes midnight of the
returned day, `day * 1440` in the minute encoding. -/
def c9_claim_as_stated (E : Env) (store : Store) : Prop :=
  ∀ vals, db_values E store = .ok vals →
    ∀ M, M ∈ vals.filterMap (item_ts E) →
      (∀ t ∈ vals.filterMap (item_ts E), t ≤ M) →
      ∃ day, DBReader.get_most_recent_indexed E store = .ok day ∧
        day * 1440 = M

/-- Concrete environment for the C9 counterexample: every date parses to
minute 971 (16:11 on 1900-01-01), and the single stored entry decodes to
a record carrying that timestamp. -/
def env3 : Env where
  mini := fun _ => [1]
  parse := fun b => if b = [1] then some ⟨some "a", .dtStr "aZ"⟩ else none
  compress := fun _ b => 0 :: b
  decompress := fun b =>
    match b with
    | 0 :: r => some r
    | _ => none
  fromIso := fun _ => some 971
  isoEnc := fun t => [t.toNat]

/-- C9 (counterexample to the claim as stated): on a store whose single
visible record is indexed at minute 971, the scan returns the day value 0
(the string `1900-01-01`), and `0 * 1440 = 0 ≠ 971`: the returned
"timestamp" is the `strftime("%Y-%m-%d")` date truncation of the maximum,
not the maximum indexed-timestamp itself. -/
theorem c9_counterexample :
    ¬ c9_claim_as_stated env3 [("a", [0, 1])] := by
  intro h
  obtain ⟨day, hres, hday⟩ :=
    h [⟨some "a", .dtStr "aZ"⟩] rfl 971 (by decide) (by decide)
  rw [show DBReader.get_most_recent_indexed env3 [("a", [0, 1])] =
      .ok (0 : Int) from rfl] at hres
  rw [← Except.ok.inj hres] at hday
  cases hday

/-- C9 (amended): `get_most_recent_indexed` performs a full scan over the
visible records; it raises `ValueError` if there are none or if any of
them lacks an extractable indexed timestamp; otherwise it returns the
`YYYY-MM-DD` calendar date (floor of the minute value by 1440) of the
true maximum indexed-timestamp among them — the date truncation of the
maximum, not the full maximum (see `c9_counterexample`). -/
theorem c9_scan_date_of_max (E : Env) (store : Store) (vals : List Item)
    (hvals : db_values E store = .ok vals) :
    (vals = [] →
      DBReader.get_most_recent_indexed E store = .error PyErr.valueError) ∧
    ((∃ it ∈ vals, item_ts E it = none) →
      DBReader.get_most_recent_indexed E store = .error PyErr.valueError) ∧
    ((∀ it ∈ vals, (item_ts E it).isSome) → vals ≠ [] →
      ∃ M, M ∈ vals.filterMap (item_ts E) ∧
        (∀ t ∈ vals.filterMap (item_ts E), t ≤ M) ∧
        DBReader.get_most_recent_indexed E store = .ok (M.fdiv 1440)) := by
  refine ⟨?_, ?_, ?_⟩
  · intro hnil
    unfold DBReader.get_most_recent_indexed
    rw [hvals, hnil]
    rfl
  · intro hmissing
    rw [get_most_recent_indexed_ok E store vals hvals,
      scan_max_missing E vals none hmissing]
  · intro hts hne
    cases vals with
    | nil => exact absurd rfl hne
    | cons item rest =>
        have hhead := hts item (List.mem_cons_self item rest)
        cases hcase : item_ts E item with
        | none => rw [hcase] at hhead; cases hhead
        | some t =>
            have hidx : get_indexed_datetime E item = .ok (some t) := by
              unfold item_ts at hcase
              split at hcase
              · rename_i t0 heq
                rw [Option.some.inj hcase] at heq
                exact heq
              · cases hcase
            refine ⟨(rest.filterMap (item_ts E)).foldl max t, ?_, ?_, ?_⟩
            · rcases foldl_max_eq_or_mem (rest.filterMap (item_ts E)) t with
                hc | hc
              · rw [hc, List.filterMap_cons, hcase]
                exact List.mem_cons_self t _
              · rw [List.filterMap_cons, hcase]
                exact List.mem_cons_of_mem t hc
            · intro u hu
              rw [List.filterMap_cons, hcase] at hu
              rcases List.mem_cons.mp hu with hc | hc
              · rw [hc]
                exact le_foldl_max _ t
              · exact le_foldl_max_of_mem _ t u hc
            · have hscan : scan_max E (item :: rest) none =
                  .ok (some ((rest.filterMap (item_ts E)).foldl max t)) := by
                unfold scan_max
                rw [hidx]
                show scan_max E rest (some t) = _
                exact scan_max_seeded E rest t
                  (fun it hit => hts it (List.mem_cons_of_mem item hit))
              rw [get_most_recent_indexed_ok E store (item :: rest) hvals,
                hscan]

/-- C9 witness: the amended theorem on the concrete one-record store of
`env3`: the maximum is minute 971 and the scan returns day 0
(`971.fdiv 1440 = 0`). -/
theorem c9_scan_date_of_max_witness :
    DBReader.get_most_recent_indexed env3 [("a", [0, 1])] = .ok (0 : Int) := by
  obtain ⟨M, hmem, _, hres⟩ :=
    (c9_scan_date_of_max env3 [("a", [0, 1])] [⟨some "a", .dtStr "aZ"⟩] rfl).2.2
      (by intro it hit; simp at hit; rw [hit]; rfl) (by simp)
  have hM : M = 971 := by
    rw [show List.filterMap (item_ts env3) [⟨some "a", .dtStr "aZ"⟩] =
        [971] from rfl] at hmem
    simpa using hmem
  rw [hM] at hres
  exact hres
